import Mathlib

/-!
Verification development for the Twitter internal-migration notebook.

The notebook resolves Twitter place strings to UK local authority districts
(LADs) through a lookup table, a geocoder fallback and a bounding-box overlap
fallback, then infers a monthly home LAD per user and aggregates month-to-month
migration flows.  The definitions below are shallow embeddings of the notebook
cells; Python dicts are modelled as association lists where the latest entry
for a key wins (matching successive `update` calls), Python sets as lists used
only through membership, machine floats as exact rationals, and the recursive
`match` function is modelled with explicit fuel since its termination depends
on the alias table being acyclic.
-/

namespace InternalMigration

/-- Association-list model of a Python dict built by successive update calls:
entries are appended in insertion order and the latest entry for a key wins. -/
def dictGet : List (String × String) → String → Option String
  | [], _ => none
  | p :: rest, k =>
    match dictGet rest k with
    | some v => some v
    | none => if p.1 = k then some p.2 else none

/-- Combinator used to reason about `dictGet` over an append: the second
(later) dict is consulted first. -/
def olast (second first : Option String) : Option String :=
  match second with
  | some v => some v
  | none => first

/-- Worker for `pySplit`.  The fuel is at least the length of the string plus
one, which is always enough since each step consumes at least one character
for a non-empty separator. -/
def splitOnGo (sep : List Char) : Nat → List Char → List Char → List (List Char)
  | 0, acc, _ => [acc.reverse]
  | fuel + 1, acc, s =>
    if sep.isPrefixOf s then
      acc.reverse :: splitOnGo sep fuel [] (s.drop sep.length)
    else
      match s with
      | [] => [acc.reverse]
      | c :: rest => splitOnGo sep fuel (c :: acc) rest

/-- Model of Python str.split with a non-empty literal separator. -/
def pySplit (sep : String) (s : String) : List String :=
  (splitOnGo sep.toList (s.toList.length + 1) [] s.toList).map (fun l => String.mk l)

/-- The separator " and " as characters. -/
def sepAnd : List Char := [' ', 'a', 'n', 'd', ' ']

/-- The separator ", " as characters. -/
def sepComma : List Char := [',', ' ']

/-- Worker for `reSplit`: scan left to right, splitting at the leftmost
occurrence of " and " or ", ".  The two separators can never both start at the
same position, so checking " and " first agrees with the regex alternation. -/
def reSplitGo : Nat → List Char → List Char → List (List Char)
  | 0, acc, _ => [acc.reverse]
  | fuel + 1, acc, s =>
    if sepAnd.isPrefixOf s then
      acc.reverse :: reSplitGo fuel [] (s.drop 5)
    else if sepComma.isPrefixOf s then
      acc.reverse :: reSplitGo fuel [] (s.drop 2)
    else
      match s with
      | [] => [acc.reverse]
      | c :: rest => reSplitGo fuel (c :: acc) rest

/-- Model of re.split on the pattern " and |, ". -/
def reSplit (s : String) : List String :=
  (reSplitGo (s.toList.length + 1) [] s.toList).map (fun l => String.mk l)

/-- The splitting condition used in the notebook for both LAD and ward names:
len(loc.split(' and ')) >= 2 and len(re.split(' and |, ', loc)) >= 2.  The
first conjunct requires " and " to occur and already implies the second. -/
def qualifies (s : String) : Bool :=
  decide (2 ≤ (pySplit " and " s).length) && decide (2 ≤ (reSplit s).length)

/-- One iteration block of the split-dict loops: every part of a qualifying
name is mapped to the associated target (the LAD name itself for the LAD loop,
the ward's parent LAD for the ward loop). -/
def split_fold (entries : List (String × String)) : List (String × String) :=
  entries.foldl
    (fun d e => if qualifies e.1 then d ++ (reSplit e.1).map (fun p => (p, e.2)) else d) []

/-- LAD_split_dict: split compound LAD names, each part aliasing the whole name. -/
def LAD_split_dict (LAD_list : List String) : List (String × String) :=
  split_fold (LAD_list.map (fun l => (l, l)))

/-- ward_split_dict: split compound ward names, each part aliasing the ward's LAD. -/
def ward_split_dict (ward : List (String × String)) : List (String × String) :=
  split_fold ward

/-- The manual alias map the notebook starts lookup_dict from. -/
def lookup_dict_init : List (String × String) := [
  ("Bristol", "Bristol, City of"),
  ("Dundee", "Dundee City"),
  ("Edinburgh", "City of Edinburgh"),
  ("Glasgow", "Glasgow City"),
  ("Kingston upon Hull", "Kingston upon Hull, City of"),
  ("Herefordshire", "Herefordshire, County of"),
  ("North East", "North East (England)"),
  ("North West", "North West (England)"),
  ("South East", "South East (England)"),
  ("South West", "South West (England)"),
  ("East Midlands", "East Midlands (England)"),
  ("Saint Helier", "Jersey"),
  ("Sale", "Trafford"),
  ("Huddersfield", "Kirklees"),
  ("West Bromwich", "Sandwell"),
  ("Ashton-under-Lyne", "Tameside")]

/-- larger_than_LAD_set: the union of the LAU1/ITL3/ITL2/ITL1 name columns
minus the LAD names (here `cols` is that union, listed in any order). -/
def larger_than_LAD_set (cols LAD_list : List String) : List String :=
  cols.filter (fun n => decide (¬ n ∈ LAD_list))

/-- Final lookup_dict: manual aliases, LAD split aliases, the ward→LAD map and
ward split aliases merged in update order, then every key that is itself a
canonical name (LAD or larger) deleted. -/
def build_lookup_dict (LAD_list larger : List String) (ward : List (String × String)) :
    List (String × String) :=
  (((lookup_dict_init ++ LAD_split_dict LAD_list) ++ ward) ++ ward_split_dict ward).filter
    (fun p => decide (¬ p.1 ∈ LAD_list ∧ ¬ p.1 ∈ larger))

/-- The process-wide reference data consumed read-only by the resolver. -/
structure LookupCtx where
  LAD_set : List String
  larger_set : List String
  table : List (String × String)

/-- Assemble the reference data the way the notebook does. -/
def buildCtx (LAD_list cols : List String) (ward : List (String × String)) : LookupCtx :=
  let larger := larger_than_LAD_set cols LAD_list
  ⟨LAD_list, larger, build_lookup_dict LAD_list larger ward⟩

/-- The notebook's recursive match function (named matchFuel because match is
reserved), with explicit fuel: some 1 = matched at LAD scale, some 2 = matched
above LAD scale, some 0 = unmatched, none = fuel exhausted, which can only
happen on an alias cycle. -/
def matchFuel (ctx : LookupCtx) : Nat → String → Option Nat
  | 0, _ => none
  | fuel + 1, location =>
    if location ∈ ctx.LAD_set then some 1
    else if location ∈ ctx.larger_set then some 2
    else
      match dictGet ctx.table location with
      | some v => matchFuel ctx fuel v
      | none => some 0

/-- match terminates on an input when some amount of fuel suffices. -/
def matchTerminates (ctx : LookupCtx) (location : String) : Prop :=
  ∃ fuel, (matchFuel ctx fuel location).isSome

/-- change_place_name: return the alias target if the string is a key,
otherwise the string itself when it matches, otherwise the unresolved
sentinel "". -/
def change_place_name (ctx : LookupCtx) (fuel : Nat) (place : String) : Option String :=
  match dictGet ctx.table place with
  | some v => some v
  | none =>
    match matchFuel ctx fuel place with
    | some m => if 0 < m then some place else some ""
    | none => none

/-- The geocoding loop submits a record to the Bing geocoder exactly when its
resolved locality is the empty string. -/
def geocoderInvoked (ctx : LookupCtx) (fuel : Nat) (location : String) : Option Bool :=
  (change_place_name ctx fuel location).map (fun s => decide (s = ""))

/-- The address part of a Bing geocoder response: the locality field and the
formattedAddress field, each possibly absent from the JSON object. -/
structure AddressRec where
  locality : Option String
  formattedAddress : Option String
deriving DecidableEq

/-- Outcome of fetching one record's geocoder response: the transport layer
either raises (netError, nothing in the loop catches it) or delivers a status
code, an estimatedTotal and, when resources are present, an address record. -/
inductive GeoResponse where
  | netError : GeoResponse
  | http : Nat → Nat → Option AddressRec → GeoResponse

/-- What one iteration of the geocoding loop does to its record. -/
inductive StepResult where
  | unresolvedRecord : StepResult
  | resolved : String → Bool → StepResult
  | exception : StepResult
deriving DecidableEq

/-- The for-j scan over the comma-separated tokens of formattedAddress:
locality is overwritten with each token in turn and the loop breaks at the
first token matching above level 0; if none matches the last token remains.
none means fuel exhaustion inside the match calls. -/
def scanTokens (ctx : LookupCtx) (fuel : Nat) : List String → String → Option String
  | [], loc => some loc
  | t :: rest, _ =>
    match matchFuel ctx fuel t with
    | none => none
    | some m => if 0 < m then some t else scanTokens ctx fuel rest t

/-- Tail of the loop body: save the bounding box when the locality is not
matched at LAD scale, then rename via special_loc_dict (the manual override
map for known special-cased geocoder outputs). -/
def finishStep (ctx : LookupCtx) (fuel : Nat) (special : List (String × String))
    (loc : String) : Option StepResult :=
  match matchFuel ctx fuel loc with
  | none => none
  | some m =>
    match dictGet special loc with
    | some v => some (StepResult.resolved v (decide (m ≠ 1)))
    | none => some (StepResult.resolved loc (decide (m ≠ 1)))

/-- Middle of the loop body, after the candidate locality has been extracted:
if it does not match, scan the remaining formattedAddress tokens — accessing
formattedAddress here raises a KeyError when the field is absent. -/
def afterLocality (ctx : LookupCtx) (fuel : Nat) (special : List (String × String))
    (fa : Option String) (loc0 : String) (addrNum : Nat) : Option StepResult :=
  match matchFuel ctx fuel loc0 with
  | none => none
  | some m0 =>
    if m0 = 0 then
      match fa with
      | none => some StepResult.exception
      | some f =>
        match scanTokens ctx fuel ((pySplit ", " f).drop addrNum) loc0 with
        | none => none
        | some loc1 => finishStep ctx fuel special loc1
    else finishStep ctx fuel special loc0

/-- One iteration of the Bing geocoding loop over an unresolved record.  Only
the non-200 and the zero-result branches keep the record unresolved; a
transport error or a missing required field propagates as an exception, since
the loop body contains no try/except other than the one around
address locality. -/
def geocodeStep (ctx : LookupCtx) (fuel : Nat) (special : List (String × String))
    (resp : GeoResponse) : Option StepResult :=
  match resp with
  | GeoResponse.netError => some StepResult.exception
  | GeoResponse.http status total addr =>
    if status = 200 then
      if total = 0 then some StepResult.unresolvedRecord
      else
        match addr with
        | none => some StepResult.exception
        | some a =>
          match a.locality with
          | some l => afterLocality ctx fuel special a.formattedAddress l 0
          | none =>
            match a.formattedAddress with
            | none => some StepResult.exception
            | some f => afterLocality ctx fuel special (some f) ((pySplit ", " f).headD "") 1
    else some StepResult.unresolvedRecord

/-- A bounding box as unpacked in IOU: bboxlist = [y1, x1, y2, x2]. -/
structure Box where
  x1 : ℚ
  y1 : ℚ
  x2 : ℚ
  y2 : ℚ
deriving DecidableEq

/-- Area of the shapely box polygon geometry.box(x1, y1, x2, y2). -/
def boxAreaQ (b : Box) : ℚ := |b.x2 - b.x1| * |b.y2 - b.y1|

/-- Abstract interface to the LAD boundary geometry: a polygon intersection
test and the area of the intersection of a LAD polygon with a box, as
computed by shapely on the LAD GeoDataFrame. -/
structure GeoModel (G : Type) where
  intersects : G → Box → Bool
  interArea : G → Box → ℚ

/-- The per-candidate overlap ratios area(unit ∩ box) / area(box), restricted
to the LAD rows whose polygon intersects the box, in table order. -/
def ratios {G : Type} (gm : GeoModel G) (tbl : List (String × G)) (b : Box) :
    List (String × ℚ) :=
  (tbl.filter (fun p => gm.intersects p.2 b)).map
    (fun p => (p.1, gm.interArea p.2 b / boxAreaQ b))

/-- Series.max together with Series.idxmax: the first entry attaining the
maximal ratio, none on an empty series. -/
def firstMax : List (String × ℚ) → Option (String × ℚ)
  | [] => none
  | p :: rest =>
    match firstMax rest with
    | none => some p
    | some q => if p.2 < q.2 then some q else some p

/-- The IOU function on a row of the four bbox columns [y1, x1, y2, x2]:
reject boxes whose vertical span exceeds 2 degrees or whose coordinates are
missing (the code tests isnan on y1; a NaN in any other coordinate makes the
geometric stage produce no accepted candidate, so the outcome is "" either
way), else accept the first best-overlap LAD when its ratio exceeds 0.6. -/
def IOU {G : Type} (gm : GeoModel G) (tbl : List (String × G))
    (se : List (Option ℚ)) : String :=
  match se with
  | [some y1, some x1, some y2, some x2] =>
    if 2 < y2 - y1 then ""
    else
      match firstMax (ratios gm tbl ⟨x1, y1, x2, y2⟩) with
      | some m => if (0.6 : ℚ) < m.2 then m.1 else ""
      | none => ""
  | _ => ""

/-- The per-month post list joined with the geocoding result: one entry per
tweet carrying the user id and the resolved LAD locality. -/
def userPosts (posts : List (Nat × String)) (u : Nat) : List String :=
  (posts.filter (fun p => p.1 == u)).map Prod.snd

/-- value_counts of userid: this user's monthly post count. -/
def userTotal (posts : List (Nat × String)) (u : Nat) : Nat :=
  (userPosts posts u).length

/-- The distinct localities of a user's posts (drop_duplicates). -/
def userDistinctLocs (posts : List (Nat × String)) (u : Nat) : List String :=
  (userPosts posts u).dedup

/-- The one-locality rule merged into user_LAD: a user whose distinct
(userid, locality) pairs number exactly one gets that locality as home. -/
def oneLocHome (posts : List (Nat × String)) (u : Nat) : Option String :=
  match userDistinctLocs posts u with
  | [l] => some l
  | _ => none

/-- Insert keeping larger keys first (descending insertion sort step). -/
def insertByDesc {α : Type} (key : α → Nat) (a : α) : List α → List α
  | [] => [a]
  | b :: rest => if key b < key a then a :: b :: rest else b :: insertByDesc key a rest

/-- Sort a list by a Nat key in descending order, as value_counts does with
counts (tie order in pandas is not specified; insertion sort fixes one). -/
def sortByDesc {α : Type} (key : α → Nat) (l : List α) : List α :=
  l.foldr (insertByDesc key) []

/-- The distinct user ids appearing this month. -/
def userList (posts : List (Nat × String)) : List Nat :=
  (posts.map Prod.fst).dedup

/-- twitter_LAD.userid.value_counts(): users ordered by descending post count. -/
def usersSorted (posts : List (Nat × String)) : List Nat :=
  sortByDesc (userTotal posts) (userList posts)

/-- user_LAD after the counts > 1 filter: (userid, counts) rows in descending
count order, keeping only users with more than one post. -/
def user_LAD_rows (posts : List (Nat × String)) : List (Nat × Nat) :=
  ((usersSorted posts).map (fun u => (u, userTotal posts u))).filter
    (fun r => decide (1 < r.2))

/-- user_LAD after the left merge with user_oneloc: each row carries the
one-locality home when the user has exactly one distinct locality, NaN
(none) otherwise. -/
def initialRows (posts : List (Nat × String)) : List (Nat × Nat × Option String) :=
  (user_LAD_rows posts).map (fun r => (r.1, r.2, oneLocHome posts r.1))

/-- twitter_LAD_count_df restricted to one user: (locality, counts) rows of
the user's distinct localities, in descending count order as value_counts
yields them. -/
def countTable (posts : List (Nat × String)) (u : Nat) : List (String × Nat) :=
  sortByDesc (fun p => p.2) ((userDistinctLocs posts u).map
    (fun l => (l, (userPosts posts u).count l)))

/-- Sum of the counts column of a per-user count table. -/
def sumCounts (t : List (String × Nat)) : Nat := (t.map Prod.snd).sum

/-- Maximum of the counts column of a per-user count table. -/
def maxCounts (t : List (String × Nat)) : Nat := (t.map Prod.snd).foldr max 0

/-- user_localization: when the user's total count exceeds 1 and the modal
share exceeds 0.65, return the first row's locality (the modal one, since the
table is sorted by descending count), else the unresolved sentinel "". -/
def user_localization (t : List (String × Nat)) : String :=
  match t with
  | [] => ""
  | p :: rest =>
    if 1 < sumCounts (p :: rest) ∧
        (0.65 : ℚ) < (maxCounts (p :: rest) : ℚ) / (sumCounts (p :: rest) : ℚ)
    then p.1 else ""

/-- The threshold pass applied to one user of the monthly table. -/
def locFn (posts : List (Nat × String)) (u : Nat) : String :=
  user_localization (countTable posts u)

/-- An empty-string home is indistinguishable from a missing one once the
monthly csv is written and read back, so "" is stored as none. -/
def optOfStr (s : String) : Option String := if s = "" then none else some s

/-- One iteration of the threshold loop on one row: rows that already carry a
string home are skipped, the rest receive the user_localization verdict. -/
def processRow (loc : Nat → String) (r : Nat × Nat × Option String) :
    Nat × Nat × Option String :=
  match r.2.2 with
  | some _ => r
  | none => (r.1, r.2.1, optOfStr (loc r.1))

/-- for i in range(k): the threshold loop applied to the first k rows. -/
def applyThreshold (loc : Nat → String) :
    List (Nat × Nat × Option String) → Nat → List (Nat × Nat × Option String)
  | [], _ => []
  | r :: rest, k =>
    match k with
    | 0 => r :: rest
    | k + 1 => processRow loc r :: applyThreshold loc rest k

/-- endline = user_LAD.shape[0] - user_LAD[user_LAD.counts == 2].shape[0]. -/
def endline (rows : List (Nat × Nat × Option String)) : Nat :=
  rows.length - (rows.filter (fun r => r.2.1 == 2)).length

/-- The finished monthly user→home table: one-locality homes merged in, then
the 0.65-threshold pass run on the first endline rows. -/
def monthlyTable (posts : List (Nat × String)) : List (Nat × Nat × Option String) :=
  applyThreshold (locFn posts) (initialRows posts) (endline (initialRows posts))

/-- The home the monthly csv records for a user: the home field of the user's
row, none when the user has no row. -/
def homeOf (posts : List (Nat × String)) (u : Nat) : Option String :=
  match (monthlyTable posts).find? (fun r => r.1 == u) with
  | some r => r.2.2
  | none => none

/-- What one row of the first month contributes after the left merge on
userid: nothing when either side's home is missing or the homes agree, the
(userid, origin, destination) migration row when they differ. -/
def migRow (m2 : List (Nat × Option String)) (r : Nat × Option String) :
    Option (Nat × String × String) :=
  match r.2 with
  | none => none
  | some h1 =>
    match m2.find? (fun q => q.1 == r.1) with
    | none => none
    | some q =>
      match q.2 with
      | none => none
      | some h2 => if h1 = h2 then none else some (r.1, h1, h2)

/-- The migration rows of migration(): left-merge the two monthly tables on
userid, drop rows with a missing home on either side, keep users whose homes
differ, producing (userid, origin, destination). -/
def migrationPairs (m1 m2 : List (Nat × Option String)) : List (Nat × String × String) :=
  m1.filterMap (migRow m2)

/-- The flow table's count for one (origin, destination) cell: the groupby
count of migration rows with that origin and destination. -/
def migration_flow (m1 m2 : List (Nat × Option String)) (o d : String) : Nat :=
  ((migrationPairs m1 m2).filter (fun t => t.2.1 == o && t.2.2 == d)).length

/-- Recursive reformulation of the split-dict loops, one block of aliases per
input name, used to reason about `split_fold`. -/
def splitBlocks : List (String × String) → List (String × String)
  | [] => []
  | e :: rest =>
    (if qualifies e.1 then (reSplit e.1).map (fun p => (p, e.2)) else []) ++ splitBlocks rest

/-- A small reference-data instance: one LAD, no coarser units, no wards.  The
manual alias map always takes part in construction, so "Saint Helier" aliases
"Jersey", which is neither canonical nor a key here. -/
def ctx7 : LookupCtx := buildCtx ["Trafford"] [] []

/-- All sixteen targets of the manual alias map, used as the LAD list of a
reference-data instance in which every alias target is canonical. -/
def goodLADs : List String := [
  "Bristol, City of", "Dundee City", "City of Edinburgh", "Glasgow City",
  "Kingston upon Hull, City of", "Herefordshire, County of",
  "North East (England)", "North West (England)", "South East (England)",
  "South West (England)", "East Midlands (England)", "Jersey", "Trafford",
  "Kirklees", "Sandwell", "Tameside"]

/-- Reference data in which every alias target is a canonical name. -/
def ctxGood : LookupCtx := buildCtx goodLADs [] []

/-- A ward→LAD input whose two rows name each other: neither string is a
canonical name, so the collision-removal step keeps both aliases. -/
def cycWard : List (String × String) := [("Aa", "Bb"), ("Bb", "Aa")]

/-- Reference data built from the cyclic ward input. -/
def ctxCyc : LookupCtx := buildCtx [] [] cycWard

/-- A well-formed one-row ward→LAD input. -/
def wardGood : List (String × String) := [("Ancoats", "Manchester")]

/-- Reference data built from the well-formed ward input. -/
def ctxW9 : LookupCtx := buildCtx ["Manchester"] [] wardGood

/-- A toy geometry instance for witnesses: a "polygon" is just its
intersection area with any box, and everything intersects. -/
def gmW : GeoModel ℚ := ⟨fun _ _ => true, fun g _ => g⟩

theorem dictGet_append (A B : List (String × String)) (k : String) :
    dictGet (A ++ B) k = olast (dictGet B k) (dictGet A k) := by
  induction A with
  | nil => cases h : dictGet B k <;> simp [dictGet, olast, h]
  | cons p A ih =>
    show dictGet (p :: (A ++ B)) k = _
    simp only [dictGet, ih]
    cases h : dictGet B k <;> simp [olast, dictGet]

theorem dictGet_mem {l : List (String × String)} {k v : String}
    (h : dictGet l k = some v) : (k, v) ∈ l := by
  induction l with
  | nil => simp [dictGet] at h
  | cons p rest ih =>
    simp only [dictGet] at h
    cases hr : dictGet rest k with
    | some w =>
      rw [hr] at h
      cases h
      exact List.mem_cons_of_mem _ (ih hr)
    | none =>
      rw [hr] at h
      by_cases hk : p.1 = k
      · rw [if_pos hk] at h
        have hp : p = (k, v) := by
          cases p
          simp only [Option.some.injEq] at h
          simp_all
        rw [← hp]
        exact List.mem_cons_self _ _
      · rw [if_neg hk] at h
        cases h

theorem split_fold_eq (entries : List (String × String)) :
    split_fold entries = splitBlocks entries := by
  have aux : ∀ (es : List (String × String)) (acc : List (String × String)),
      es.foldl (fun d e =>
        if qualifies e.1 then d ++ (reSplit e.1).map (fun p => (p, e.2)) else d) acc =
      acc ++ splitBlocks es := by
    intro es
    induction es with
    | nil => intro acc; simp [splitBlocks]
    | cons e rest ih =>
      intro acc
      simp only [List.foldl_cons, ih, splitBlocks]
      by_cases hq : qualifies e.1 <;> simp [hq, List.append_assoc]
  exact aux entries []

theorem dictGet_map_parts (parts : List String) (v p : String) :
    dictGet (parts.map (fun q => (q, v))) p = if p ∈ parts then some v else none := by
  induction parts with
  | nil => simp [dictGet]
  | cons q rest ih =>
    simp only [List.map_cons, dictGet, ih]
    by_cases hr : p ∈ rest
    · simp [hr]
    · by_cases hq : q = p
      · subst hq
        simp [hr]
      · have : ¬ p = q := fun hc => hq hc.symm
        simp [hr, hq, this]

theorem dictGet_splitBlocks_none (entries : List (String × String)) (p : String)
    (h : ∀ e ∈ entries, ¬ (qualifies e.1 = true ∧ p ∈ reSplit e.1)) :
    dictGet (splitBlocks entries) p = none := by
  induction entries with
  | nil => simp [splitBlocks, dictGet]
  | cons e rest ih =>
    have hrest := ih (fun e' he' => h e' (List.mem_cons_of_mem _ he'))
    have hhead := h e (List.mem_cons_self _ _)
    simp only [splitBlocks, dictGet_append, hrest, olast]
    by_cases hq : qualifies e.1
    · have hp : ¬ p ∈ reSplit e.1 := fun hc => hhead ⟨hq, hc⟩
      simp [hq, dictGet_map_parts, hp]
    · simp [hq, dictGet]

theorem dictGet_splitBlocks_some (entries : List (String × String))
    (loc v p : String) (he : (loc, v) ∈ entries) (hq : qualifies loc = true)
    (hp : p ∈ reSplit loc)
    (huniq : ∀ e ∈ entries, qualifies e.1 = true → p ∈ reSplit e.1 → e.1 = loc)
    (hval : ∀ e ∈ entries, e.1 = loc → e.2 = v) :
    dictGet (splitBlocks entries) p = some v := by
  induction entries with
  | nil => cases he
  | cons e rest ih =>
    by_cases hr : (loc, v) ∈ rest
    · have := ih hr (fun e' he' => huniq e' (List.mem_cons_of_mem _ he'))
        (fun e' he' => hval e' (List.mem_cons_of_mem _ he'))
      simp only [splitBlocks, dictGet_append, this, olast]
    · have hhead : e = (loc, v) := by
        rcases List.mem_cons.mp he with h1 | h1
        · exact h1.symm
        · exact absurd h1 hr
      subst hhead
      have hnone : dictGet (splitBlocks rest) p = none := by
        apply dictGet_splitBlocks_none
        intro e' he' hc
        have h1 : e'.1 = loc := huniq e' (List.mem_cons_of_mem _ he') hc.1 hc.2
        have h2 : e'.2 = v := hval e' (List.mem_cons_of_mem _ he') h1
        have : e' = (loc, v) := by
          cases e'
          simp_all
        exact hr (this ▸ he')
      simp only [splitBlocks, dictGet_append, hnone, olast, hq, if_true]
      simp [dictGet_map_parts, hp]

theorem splitBlocks_nil_of_none (entries : List (String × String))
    (h : ∀ e ∈ entries, qualifies e.1 = false) : splitBlocks entries = [] := by
  induction entries with
  | nil => rfl
  | cons e rest ih =>
    have := h e (List.mem_cons_self _ _)
    simp [splitBlocks, this, ih (fun e' he' => h e' (List.mem_cons_of_mem _ he'))]

/-- C3 counterexample: "Bristol, City of" is a canonical LAD name that is a
comma-separated list with two parts, yet the construction adds no alias for
its parts, because the splitting condition demands the substring " and ": the
claimed disjunction (conjunction pattern OR comma list) does not match the
code. -/
theorem C3_comma_name_not_split :
    2 ≤ (reSplit "Bristol, City of").length ∧
    dictGet (LAD_split_dict ["Bristol, City of"]) "Bristol" = none := by
  exact ⟨by decide, by decide⟩

/-- C3 amended: only names containing the conjunction " and " are decomposed
(a comma list without " and " is left whole); for such a name, every part from
splitting on " and " and ", " is added as an alias of the whole LAD name
(respectively of the ward's parent LAD), with later qualifying names
overriding earlier ones on a shared part, so the alias maps to the compound
name whenever no other qualifying name shares the part. -/
theorem C3_conjunction_split_aliases :
    (∀ (L : List String), (∀ loc ∈ L, (pySplit " and " loc).length < 2) →
        LAD_split_dict L = [])
    ∧ (∀ (L : List String) (loc p : String), loc ∈ L → qualifies loc = true →
        p ∈ reSplit loc →
        (∀ loc2 ∈ L, qualifies loc2 = true → p ∈ reSplit loc2 → loc2 = loc) →
        dictGet (LAD_split_dict L) p = some loc)
    ∧ (∀ (ward : List (String × String)) (loc lad p : String), (loc, lad) ∈ ward →
        qualifies loc = true → p ∈ reSplit loc →
        (∀ e ∈ ward, qualifies e.1 = true → p ∈ reSplit e.1 → e.1 = loc) →
        (∀ e ∈ ward, e.1 = loc → e.2 = lad) →
        dictGet (ward_split_dict ward) p = some lad) := by
  refine ⟨?_, ?_, ?_⟩
  · intro L h
    rw [LAD_split_dict, split_fold_eq]
    apply splitBlocks_nil_of_none
    intro e he
    rcases List.mem_map.mp he with ⟨l, hl, rfl⟩
    have := h l hl
    simp only [qualifies]
    have hdec : decide (2 ≤ (pySplit " and " l).length) = false := by
      simp [Nat.not_le.mpr this]
    simp [hdec]
  · intro L loc p hloc hq hp huniq
    rw [LAD_split_dict, split_fold_eq]
    apply dictGet_splitBlocks_some _ loc loc p
    · exact List.mem_map.mpr ⟨loc, hloc, rfl⟩
    · exact hq
    · exact hp
    · intro e he hqe hpe
      rcases List.mem_map.mp he with ⟨l, hl, rfl⟩
      exact huniq l hl hqe hpe
    · intro e he h1
      rcases List.mem_map.mp he with ⟨l, hl, rfl⟩
      exact h1
  · intro ward loc lad p he hq hp huniq hval
    rw [ward_split_dict, split_fold_eq]
    exact dictGet_splitBlocks_some ward loc lad p he hq hp huniq hval

/-- C3 witness: the compound LAD name "Armagh City, Banbridge and Craigavon"
is split and "Banbridge" aliases the whole name. -/
theorem C3_conjunction_split_aliases_witness :
    dictGet (LAD_split_dict ["Armagh City, Banbridge and Craigavon"]) "Banbridge" =
      some "Armagh City, Banbridge and Craigavon" :=
  C3_conjunction_split_aliases.2.1 ["Armagh City, Banbridge and Craigavon"]
    "Armagh City, Banbridge and Craigavon" "Banbridge"
    (by decide) (by decide) (by decide) (by decide)

/-- C4: after construction no alias key is a canonical name at LAD level or
above; consequently every canonical LAD name matches at level 1 and
canonicalizes to itself, and every canonical coarser name matches at
level 2. -/
theorem C4_no_alias_shadows_canonical (LAD_list cols : List String)
    (ward : List (String × String)) (fuel : Nat) :
    (∀ p ∈ (buildCtx LAD_list cols ward).table,
        ¬ p.1 ∈ (buildCtx LAD_list cols ward).LAD_set ∧
        ¬ p.1 ∈ (buildCtx LAD_list cols ward).larger_set)
    ∧ (∀ n ∈ (buildCtx LAD_list cols ward).LAD_set,
        matchFuel (buildCtx LAD_list cols ward) (fuel + 1) n = some 1 ∧
        change_place_name (buildCtx LAD_list cols ward) (fuel + 1) n = some n)
    ∧ (∀ n ∈ (buildCtx LAD_list cols ward).larger_set,
        matchFuel (buildCtx LAD_list cols ward) (fuel + 1) n = some 2) := by
  have htab : ∀ p ∈ (buildCtx LAD_list cols ward).table,
      ¬ p.1 ∈ LAD_list ∧ ¬ p.1 ∈ larger_than_LAD_set cols LAD_list := by
    intro p hp
    have hp2 : p ∈ List.filter
        (fun p => decide (¬ p.1 ∈ LAD_list ∧
          ¬ p.1 ∈ larger_than_LAD_set cols LAD_list)) _ := hp
    exact of_decide_eq_true (List.mem_filter.mp hp2).2
  refine ⟨htab, ?_, ?_⟩
  · intro n hn
    have hset : (buildCtx LAD_list cols ward).LAD_set = LAD_list := rfl
    rw [hset] at hn
    constructor
    · simp [matchFuel, hset, hn]
    · have hnone : dictGet (buildCtx LAD_list cols ward).table n = none := by
        cases hd : dictGet (buildCtx LAD_list cols ward).table n with
        | none => rfl
        | some v =>
          exact absurd hn (htab (n, v) (dictGet_mem hd)).1
      simp [change_place_name, hnone, matchFuel, hset, hn]
  · intro n hn
    have hset : (buildCtx LAD_list cols ward).larger_set =
        larger_than_LAD_set cols LAD_list := rfl
    have hsetL : (buildCtx LAD_list cols ward).LAD_set = LAD_list := rfl
    rw [hset] at hn
    have hnot : ¬ n ∈ LAD_list := by
      have := (List.mem_filter.mp hn).2
      exact of_decide_eq_true this
    simp [matchFuel, hset, hsetL, hn, hnot]

/-- C4 witness at a concrete hierarchy with one LAD and one coarser unit. -/
theorem C4_no_alias_shadows_canonical_witness :
    (matchFuel (buildCtx ["Trafford"] ["North West (England)"] []) 1 "Trafford" = some 1 ∧
      change_place_name (buildCtx ["Trafford"] ["North West (England)"] []) 1 "Trafford" =
        some "Trafford") ∧
    matchFuel (buildCtx ["Trafford"] ["North West (England)"] []) 1
      "North West (England)" = some 2 :=
  ⟨(C4_no_alias_shadows_canonical ["Trafford"] ["North West (England)"] [] 0).2.1
      "Trafford" (by decide),
    (C4_no_alias_shadows_canonical ["Trafford"] ["North West (England)"] [] 0).2.2
      "North West (England)" (by decide)⟩

/-- C7 counterexample: with one LAD "Trafford" and the manual alias map,
"Saint Helier" resolves to "Jersey", a non-empty locality, so the geocoder is
not invoked — yet classify(canonicalize("Saint Helier")) = 0, against the
claimed "if and only if". -/
theorem C7_alias_dead_target_not_geocoded :
    geocoderInvoked ctx7 1 "Saint Helier" = some false ∧
    (change_place_name ctx7 1 "Saint Helier").bind (matchFuel ctx7 1) = some 0 := by
  exact ⟨by decide, by decide⟩

/-- C7 amended: the geocoder is invoked only for records whose place string
classifies to level 0 after canonicalization — a record classifying above 0
is never submitted; the converse (level 0 implies invoked) holds whenever
every alias target in the lookup table is itself a canonical name, but can
fail for aliases whose target is neither canonical nor a key. -/
theorem C7_geocoder_invocation (ctx : LookupCtx) (fuel : Nat)
    (h1 : ¬ "" ∈ ctx.LAD_set) (h2 : ¬ "" ∈ ctx.larger_set)
    (h3 : dictGet ctx.table "" = none) :
    (∀ l, geocoderInvoked ctx (fuel + 1) l = some true →
        (change_place_name ctx (fuel + 1) l).bind (matchFuel ctx (fuel + 1)) = some 0)
    ∧ ((∀ p ∈ ctx.table, p.2 ∈ ctx.LAD_set ∨ p.2 ∈ ctx.larger_set) →
        ∀ l m,
          (change_place_name ctx (fuel + 1) l).bind (matchFuel ctx (fuel + 1)) = some m →
          geocoderInvoked ctx (fuel + 1) l = some (decide (m = 0))) := by
  have hmE : matchFuel ctx (fuel + 1) "" = some 0 := by
    simp [matchFuel, h1, h2, h3]
  constructor
  · intro l hl
    rcases Option.map_eq_some'.mp hl with ⟨s, hs, hdec⟩
    have hsE : s = "" := of_decide_eq_true hdec
    subst hsE
    rw [hs]
    exact hmE
  · intro hT l m hm
    rw [geocoderInvoked]
    cases hd : dictGet ctx.table l with
    | some v =>
      have hchange : change_place_name ctx (fuel + 1) l = some v := by
        simp [change_place_name, hd]
      replace hm : matchFuel ctx (fuel + 1) v = some m := by
        rw [hchange] at hm
        exact hm
      have hv := hT (l, v) (dictGet_mem hd)
      have hne : ¬ v = "" := by
        intro hc
        subst hc
        rcases hv with hv | hv
        · exact h1 hv
        · exact h2 hv
      have hmval : m = 1 ∨ m = 2 := by
        by_cases hvL : v ∈ ctx.LAD_set
        · have hone : matchFuel ctx (fuel + 1) v = some 1 := by simp [matchFuel, hvL]
          rw [hone] at hm
          cases hm
          exact Or.inl rfl
        · rcases hv with hv2 | hv2
          · exact absurd hv2 hvL
          · have htwo : matchFuel ctx (fuel + 1) v = some 2 := by
              simp [matchFuel, hvL, hv2]
            rw [htwo] at hm
            cases hm
            exact Or.inr rfl
      have hm0 : ¬ m = 0 := by
        rcases hmval with h | h <;> simp [h]
      rw [hchange]
      simp [hne, hm0]
    | none =>
      by_cases hL : l ∈ ctx.LAD_set
      · have hmatch : matchFuel ctx (fuel + 1) l = some 1 := by simp [matchFuel, hL]
        have hchange : change_place_name ctx (fuel + 1) l = some l := by
          simp [change_place_name, hd, hmatch]
        replace hm : matchFuel ctx (fuel + 1) l = some m := by
          rw [hchange] at hm
          exact hm
        rw [hmatch] at hm
        cases hm
        have hne : ¬ l = "" := fun hc => h1 (hc ▸ hL)
        rw [hchange]
        simp [hne]
      · by_cases hG : l ∈ ctx.larger_set
        · have hmatch : matchFuel ctx (fuel + 1) l = some 2 := by
            simp [matchFuel, hL, hG]
          have hchange : change_place_name ctx (fuel + 1) l = some l := by
            simp [change_place_name, hd, hmatch]
          replace hm : matchFuel ctx (fuel + 1) l = some m := by
            rw [hchange] at hm
            exact hm
          rw [hmatch] at hm
          cases hm
          have hne : ¬ l = "" := fun hc => h2 (hc ▸ hG)
          rw [hchange]
          simp [hne]
        · have hmatch : matchFuel ctx (fuel + 1) l = some 0 := by
            simp [matchFuel, hL, hG, hd]
          have hchange : change_place_name ctx (fuel + 1) l = some "" := by
            simp [change_place_name, hd, hmatch]
          replace hm : matchFuel ctx (fuel + 1) "" = some m := by
            rw [hchange] at hm
            exact hm
          rw [hmE] at hm
          cases hm
          rw [hchange]
          simp

/-- C7 witness: in reference data whose alias targets are all canonical, an
unknown string classifies to 0 and is submitted to the geocoder. -/
theorem C7_geocoder_invocation_witness :
    geocoderInvoked ctxGood 1 "zzz" = some true :=
  (C7_geocoder_invocation ctxGood 0 (by decide) (by decide) (by decide)).2
    (by decide) "zzz" 0 (by decide)

/-- Cyclic-alias step on "Aa": one unit of fuel is consumed and the match
recursion moves to "Bb". -/
theorem cyc_step_a (fuel : Nat) :
    matchFuel ctxCyc (fuel + 1) "Aa" = matchFuel ctxCyc fuel "Bb" := rfl

/-- Cyclic-alias step on "Bb": the match recursion moves back to "Aa". -/
theorem cyc_step_b (fuel : Nat) :
    matchFuel ctxCyc (fuel + 1) "Bb" = matchFuel ctxCyc fuel "Aa" := rfl

/-- On the cyclic table no amount of fuel resolves either alias. -/
theorem cyc_none (fuel : Nat) :
    matchFuel ctxCyc fuel "Aa" = none ∧ matchFuel ctxCyc fuel "Bb" = none := by
  induction fuel with
  | zero => exact ⟨rfl, rfl⟩
  | succ n ih => exact ⟨by rw [cyc_step_a]; exact ih.2, by rw [cyc_step_b]; exact ih.1⟩

/-- C9 counterexample: construction alone does not exclude alias cycles — a
ward input whose two rows name each other survives the collision-removal step
(neither string is canonical) and the match recursion on "Aa" never
terminates. -/
theorem C9_cyclic_ward_data_diverges : ¬ matchTerminates ctxCyc "Aa" := by
  rintro ⟨fuel, h⟩
  rw [(cyc_none fuel).1] at h
  simp at h

/-- C9 amended: match terminates on every input whenever every alias target
in the constructed table is a canonical name or not itself a key — as holds
for well-formed reference data whose ward targets are actual LAD names; the
construction by itself does not rule out cycles coming from cyclic input
data. -/
theorem C9_match_terminates_canonical_targets (ctx : LookupCtx)
    (h : ∀ p ∈ ctx.table,
        p.2 ∈ ctx.LAD_set ∨ p.2 ∈ ctx.larger_set ∨ dictGet ctx.table p.2 = none) :
    ∀ l, matchTerminates ctx l := by
  intro l
  refine ⟨2, ?_⟩
  by_cases hL : l ∈ ctx.LAD_set
  · simp [matchFuel, hL]
  · by_cases hG : l ∈ ctx.larger_set
    · simp [matchFuel, hL, hG]
    · cases hd : dictGet ctx.table l with
      | none => simp [matchFuel, hL, hG, hd]
      | some v =>
        have hstep : matchFuel ctx 2 l = matchFuel ctx 1 v := by
          simp [matchFuel, hL, hG, hd]
        rw [hstep]
        rcases h (l, v) (dictGet_mem hd) with hv | hv | hv
        · simp [matchFuel, hv]
        · by_cases hvL : v ∈ ctx.LAD_set <;> simp [matchFuel, hvL, hv]
        · by_cases hvL : v ∈ ctx.LAD_set
          · simp [matchFuel, hvL]
          · by_cases hvG : v ∈ ctx.larger_set
            · simp [matchFuel, hvL, hvG]
            · simp [matchFuel, hvL, hvG, hv]

/-- C9 witness: on well-formed reference data the match recursion terminates,
here on the ward name "Ancoats". -/
theorem C9_match_terminates_canonical_targets_witness :
    matchTerminates ctxW9 "Ancoats" :=
  C9_match_terminates_canonical_targets ctxW9 (by decide) "Ancoats"

/-- C8 counterexample: a transport error from requests.get is not caught
anywhere in the geocoding loop, so it propagates past the loop instead of
leaving the record unresolved. -/
theorem C8_network_error_raises :
    geocodeStep ctx7 1 [] GeoResponse.netError = some StepResult.exception ∧
    geocodeStep ctx7 1 [] GeoResponse.netError ≠ some StepResult.unresolvedRecord := by
  exact ⟨rfl, by decide⟩

/-- The token scan never gets stuck when every match call returns. -/
theorem scanTokens_total (ctx : LookupCtx) (fuel : Nat)
    (hm : ∀ s, (matchFuel ctx fuel s).isSome) :
    ∀ (ts : List String) (loc : String), ∃ r, scanTokens ctx fuel ts loc = some r := by
  intro ts
  induction ts with
  | nil => intro loc; exact ⟨loc, rfl⟩
  | cons t rest ih =>
    intro loc
    rcases Option.isSome_iff_exists.mp (hm t) with ⟨m, hmt⟩
    by_cases h0 : 0 < m
    · exact ⟨t, by simp [scanTokens, hmt, h0]⟩
    · rcases ih t with ⟨r, hr⟩
      exact ⟨r, by simp [scanTokens, hmt, h0, hr]⟩

/-- The tail of the loop body always produces a resolved record when every
match call returns. -/
theorem finishStep_total (ctx : LookupCtx) (fuel : Nat)
    (special : List (String × String)) (hm : ∀ s, (matchFuel ctx fuel s).isSome) :
    ∀ loc, ∃ l b, finishStep ctx fuel special loc = some (StepResult.resolved l b) := by
  intro loc
  rcases Option.isSome_iff_exists.mp (hm loc) with ⟨m, hmt⟩
  cases hd : dictGet special loc with
  | some v => exact ⟨v, decide (m ≠ 1), by simp [finishStep, hmt, hd]⟩
  | none => exact ⟨loc, decide (m ≠ 1), by simp [finishStep, hmt, hd]⟩

/-- With a formatted address available the loop body after candidate
extraction always produces a resolved record when every match call returns. -/
theorem afterLocality_total (ctx : LookupCtx) (fuel : Nat)
    (special : List (String × String)) (hm : ∀ s, (matchFuel ctx fuel s).isSome) :
    ∀ (fa loc0 : String) (addrNum : Nat),
      ∃ l b, afterLocality ctx fuel special (some fa) loc0 addrNum =
        some (StepResult.resolved l b) := by
  intro fa loc0 addrNum
  rcases Option.isSome_iff_exists.mp (hm loc0) with ⟨m0, hm0⟩
  by_cases hz : m0 = 0
  · rcases scanTokens_total ctx fuel hm ((pySplit ", " fa).drop addrNum) loc0 with ⟨loc1, h1⟩
    rcases finishStep_total ctx fuel special hm loc1 with ⟨l, b, h2⟩
    exact ⟨l, b, by simp [afterLocality, hm0, hz, h1, h2]⟩
  · rcases finishStep_total ctx fuel special hm loc0 with ⟨l, b, h2⟩
    exact ⟨l, b, by simp [afterLocality, hm0, hz, h2]⟩

/-- C8 amended: a non-200 response or a zero-result response leaves the
record unresolved for the pass, and a missing locality field is handled by
the formatted-address fallback without raising; but a network/transport error
raises past the loop, as does a 200 nonzero-result response lacking an
address record, or lacking formattedAddress when it is needed (no locality
field, or a locality that fails to match). -/
theorem C8_geocode_failure_semantics (ctx : LookupCtx) (fuel : Nat)
    (special : List (String × String)) :
    (∀ status total addr, status ≠ 200 →
        geocodeStep ctx fuel special (GeoResponse.http status total addr) =
          some StepResult.unresolvedRecord)
    ∧ (∀ addr, geocodeStep ctx fuel special (GeoResponse.http 200 0 addr) =
          some StepResult.unresolvedRecord)
    ∧ geocodeStep ctx fuel special GeoResponse.netError = some StepResult.exception
    ∧ (∀ total, total ≠ 0 →
        geocodeStep ctx fuel special (GeoResponse.http 200 total none) =
          some StepResult.exception)
    ∧ (∀ total, total ≠ 0 →
        geocodeStep ctx fuel special
          (GeoResponse.http 200 total (some ⟨none, none⟩)) =
          some StepResult.exception)
    ∧ (∀ total loc, total ≠ 0 → matchFuel ctx fuel loc = some 0 →
        geocodeStep ctx fuel special
          (GeoResponse.http 200 total (some ⟨some loc, none⟩)) =
          some StepResult.exception)
    ∧ ((∀ s, (matchFuel ctx fuel s).isSome) → ∀ total fa, total ≠ 0 →
        ∃ l b, geocodeStep ctx fuel special
          (GeoResponse.http 200 total (some ⟨none, some fa⟩)) =
          some (StepResult.resolved l b)) := by
  refine ⟨?_, ?_, rfl, ?_, ?_, ?_, ?_⟩
  · intro status total addr h
    simp [geocodeStep, h]
  · intro addr
    simp [geocodeStep]
  · intro total h
    simp [geocodeStep, h]
  · intro total h
    simp [geocodeStep, h]
  · intro total loc h hm
    simp [geocodeStep, afterLocality, h, hm]
  · intro hm total fa h
    rcases afterLocality_total ctx fuel special hm fa ((pySplit ", " fa).headD "") 1 with
      ⟨l, b, hstep⟩
    refine ⟨l, b, ?_⟩
    have hred : geocodeStep ctx fuel special
        (GeoResponse.http 200 total (some ⟨none, some fa⟩)) =
        afterLocality ctx fuel special (some fa) ((pySplit ", " fa).headD "") 1 := by
      simp [geocodeStep, h]
    rw [hred]
    exact hstep

/-- C8 witness: a 404 response leaves the record unresolved. -/
theorem C8_geocode_failure_semantics_witness :
    geocodeStep ctx7 1 [] (GeoResponse.http 404 5 none) =
      some StepResult.unresolvedRecord :=
  (C8_geocode_failure_semantics ctx7 1 []).1 404 5 none (by decide)

theorem firstMax_eq_none {l : List (String × ℚ)} : firstMax l = none ↔ l = [] := by
  cases l with
  | nil => simp [firstMax]
  | cons p rest =>
    simp only [firstMax]
    cases firstMax rest with
    | none => simp
    | some q =>
      by_cases h : p.2 < q.2 <;> simp [h]

theorem firstMax_mem : ∀ {l : List (String × ℚ)} {m : String × ℚ},
    firstMax l = some m → m ∈ l := by
  intro l
  induction l with
  | nil => intro m h; cases h
  | cons p rest ih =>
    intro m h
    simp only [firstMax] at h
    cases hr : firstMax rest with
    | none =>
      rw [hr] at h
      cases h
      exact List.mem_cons_self _ _
    | some q =>
      rw [hr] at h
      replace h : (if p.2 < q.2 then some q else some p) = some m := h
      by_cases hlt : p.2 < q.2
      · rw [if_pos hlt] at h
        cases h
        exact List.mem_cons_of_mem _ (ih hr)
      · rw [if_neg hlt] at h
        cases h
        exact List.mem_cons_self _ _

theorem firstMax_le : ∀ {l : List (String × ℚ)} {m : String × ℚ},
    firstMax l = some m → ∀ q ∈ l, q.2 ≤ m.2 := by
  intro l
  induction l with
  | nil => intro m _ q hq; cases hq
  | cons p rest ih =>
    intro m h q hq
    simp only [firstMax] at h
    cases hr : firstMax rest with
    | none =>
      rw [hr] at h
      cases h
      have hrest : rest = [] := firstMax_eq_none.mp hr
      subst hrest
      rcases List.mem_cons.mp hq with rfl | hq2
      · exact le_refl _
      · cases hq2
    | some w =>
      rw [hr] at h
      replace h : (if p.2 < w.2 then some w else some p) = some m := h
      by_cases hlt : p.2 < w.2
      · rw [if_pos hlt] at h
        cases h
        rcases List.mem_cons.mp hq with rfl | hq2
        · exact le_of_lt hlt
        · exact ih hr q hq2
      · rw [if_neg hlt] at h
        cases h
        rcases List.mem_cons.mp hq with rfl | hq2
        · exact le_refl _
        · exact le_trans (ih hr q hq2) (not_lt.mp hlt)

theorem mem_ratios_intro {G : Type} (gm : GeoModel G) (tbl : List (String × G))
    (b : Box) {A : String} {g : G} (h : (A, g) ∈ tbl)
    (hi : gm.intersects g b = true) :
    (A, gm.interArea g b / boxAreaQ b) ∈ ratios gm tbl b := by
  apply List.mem_map.mpr
  exact ⟨(A, g), List.mem_filter.mpr ⟨h, hi⟩, rfl⟩

theorem mem_ratios_elim {G : Type} (gm : GeoModel G) (tbl : List (String × G))
    (b : Box) {x : String × ℚ} (h : x ∈ ratios gm tbl b) :
    ∃ g, (x.1, g) ∈ tbl ∧ gm.intersects g b = true ∧
      x.2 = gm.interArea g b / boxAreaQ b := by
  rcases List.mem_map.mp h with ⟨p, hp, rfl⟩
  have hf := List.mem_filter.mp hp
  exact ⟨p.2, by simpa using hf.1, hf.2, rfl⟩

theorem IOU_accepts {G : Type} (gm : GeoModel G) (tbl : List (String × G))
    (y1 x1 y2 x2 : ℚ) (A : String) (g : G) (hspan : ¬ 2 < y2 - y1)
    (hmem : (A, g) ∈ tbl)
    (hint : gm.intersects g ⟨x1, y1, x2, y2⟩ = true)
    (hrat : (0.6 : ℚ) <
      gm.interArea g ⟨x1, y1, x2, y2⟩ / boxAreaQ ⟨x1, y1, x2, y2⟩)
    (hmax : ∀ B h, (B, h) ∈ tbl → B ≠ A →
      gm.intersects h ⟨x1, y1, x2, y2⟩ = true →
      gm.interArea h ⟨x1, y1, x2, y2⟩ / boxAreaQ ⟨x1, y1, x2, y2⟩ <
        gm.interArea g ⟨x1, y1, x2, y2⟩ / boxAreaQ ⟨x1, y1, x2, y2⟩) :
    IOU gm tbl [some y1, some x1, some y2, some x2] = A := by
  have hA : (A, gm.interArea g ⟨x1, y1, x2, y2⟩ / boxAreaQ ⟨x1, y1, x2, y2⟩) ∈
      ratios gm tbl ⟨x1, y1, x2, y2⟩ := mem_ratios_intro gm tbl _ hmem hint
  cases hfm : firstMax (ratios gm tbl ⟨x1, y1, x2, y2⟩) with
  | none =>
    rw [firstMax_eq_none] at hfm
    rw [hfm] at hA
    cases hA
  | some m =>
    have hle := firstMax_le hfm _ hA
    rcases mem_ratios_elim gm tbl _ (firstMax_mem hfm) with ⟨gB, hgB, hiB, hval⟩
    have hname : m.1 = A := by
      by_contra hne
      have hc := hmax m.1 gB hgB hne hiB
      rw [← hval] at hc
      exact absurd hle (not_le.mpr hc)
    have h06 : (0.6 : ℚ) < m.2 := lt_of_lt_of_le hrat hle
    simp [IOU, hspan, hfm, h06, hname]

/-- C6: the bounding-box overlap resolver rejects boxes with vertical span
over 2 degrees or missing coordinates; otherwise it accepts the unit of
maximal overlap ratio exactly when that ratio exceeds 0.6, returns unresolved
when every unit's ratio is below 0.6, and a box lying fully inside exactly
one unit's polygon resolves to that unit. -/
theorem C6_IOU_threshold_argmax {G : Type} (gm : GeoModel G)
    (tbl : List (String × G)) :
    (∀ y1 x1 y2 x2 : ℚ, 2 < y2 - y1 →
        IOU gm tbl [some y1, some x1, some y2, some x2] = "")
    ∧ (∀ c1 c2 c3 c4 : Option ℚ, (c1 = none ∨ c2 = none ∨ c3 = none ∨ c4 = none) →
        IOU gm tbl [c1, c2, c3, c4] = "")
    ∧ (∀ y1 x1 y2 x2 : ℚ, ∀ (A : String) (g : G), ¬ 2 < y2 - y1 → (A, g) ∈ tbl →
        gm.intersects g ⟨x1, y1, x2, y2⟩ = true →
        (0.6 : ℚ) < gm.interArea g ⟨x1, y1, x2, y2⟩ / boxAreaQ ⟨x1, y1, x2, y2⟩ →
        (∀ B h, (B, h) ∈ tbl → B ≠ A → gm.intersects h ⟨x1, y1, x2, y2⟩ = true →
          gm.interArea h ⟨x1, y1, x2, y2⟩ / boxAreaQ ⟨x1, y1, x2, y2⟩ <
            gm.interArea g ⟨x1, y1, x2, y2⟩ / boxAreaQ ⟨x1, y1, x2, y2⟩) →
        IOU gm tbl [some y1, some x1, some y2, some x2] = A)
    ∧ (∀ y1 x1 y2 x2 : ℚ, (∀ B h, (B, h) ∈ tbl →
          gm.interArea h ⟨x1, y1, x2, y2⟩ / boxAreaQ ⟨x1, y1, x2, y2⟩ < (0.6 : ℚ)) →
        IOU gm tbl [some y1, some x1, some y2, some x2] = "")
    ∧ (∀ y1 x1 y2 x2 : ℚ, ∀ (A : String) (g : G), ¬ 2 < y2 - y1 →
        0 < boxAreaQ ⟨x1, y1, x2, y2⟩ → (A, g) ∈ tbl →
        gm.intersects g ⟨x1, y1, x2, y2⟩ = true →
        gm.interArea g ⟨x1, y1, x2, y2⟩ = boxAreaQ ⟨x1, y1, x2, y2⟩ →
        (∀ B h, (B, h) ∈ tbl → B ≠ A →
          gm.interArea h ⟨x1, y1, x2, y2⟩ < boxAreaQ ⟨x1, y1, x2, y2⟩) →
        IOU gm tbl [some y1, some x1, some y2, some x2] = A) := by
  refine ⟨?_, ?_, ?_, ?_, ?_⟩
  · intro y1 x1 y2 x2 h
    simp [IOU, h]
  · intro c1 c2 c3 c4 h
    rcases h with rfl | rfl | rfl | rfl
    · cases c2 <;> cases c3 <;> cases c4 <;> rfl
    · cases c1 <;> cases c3 <;> cases c4 <;> rfl
    · cases c1 <;> cases c2 <;> cases c4 <;> rfl
    · cases c1 <;> cases c2 <;> cases c3 <;> rfl
  · intro y1 x1 y2 x2 A g hspan hmem hint hrat hmax
    exact IOU_accepts gm tbl y1 x1 y2 x2 A g hspan hmem hint hrat hmax
  · intro y1 x1 y2 x2 hlt
    by_cases hspan : 2 < y2 - y1
    · simp [IOU, hspan]
    · cases hfm : firstMax (ratios gm tbl ⟨x1, y1, x2, y2⟩) with
      | none => simp [IOU, hspan, hfm]
      | some m =>
        rcases mem_ratios_elim gm tbl _ (firstMax_mem hfm) with ⟨gB, hgB, _, hval⟩
        have hm6 : m.2 < (0.6 : ℚ) := by
          rw [hval]
          exact hlt m.1 gB hgB
        simp [IOU, hspan, hfm, not_lt.mpr (le_of_lt hm6)]
  · intro y1 x1 y2 x2 A g hspan hpos hmem hint heq hothers
    apply IOU_accepts gm tbl y1 x1 y2 x2 A g hspan hmem hint
    · rw [heq, div_self (ne_of_gt hpos)]
      norm_num
    · intro B h hBh hne _
      rw [heq, div_self (ne_of_gt hpos)]
      rw [div_lt_one hpos]
      exact hothers B h hBh hne

/-- C6 witness: in a toy geometry a unit box lies fully inside unit "A"
(overlap 1) and covers half of unit "B", so it resolves to "A". -/
theorem C6_IOU_threshold_argmax_witness :
    IOU gmW [("A", (1 : ℚ)), ("B", (1 : ℚ) / 2)] [some 0, some 0, some 1, some 1] =
      "A" := by
  apply (C6_IOU_threshold_argmax gmW [("A", (1 : ℚ)), ("B", (1 : ℚ) / 2)]).2.2.2.2
    0 0 1 1 "A" (1 : ℚ)
  · norm_num
  · norm_num [boxAreaQ]
  · exact List.mem_cons_self _ _
  · rfl
  · norm_num [gmW, boxAreaQ]
  · intro B h hBh hne
    rcases List.mem_cons.mp hBh with heq | hmem2
    · exact absurd (congrArg Prod.fst heq) hne
    · rcases List.mem_cons.mp hmem2 with heq | hmem3
      · have hh : h = (1 : ℚ) / 2 := congrArg Prod.snd heq
        rw [hh]
        norm_num [gmW, boxAreaQ]
      · cases hmem3

/-- C2: for a user with more than one distinct locality, user_localization
returns the modal locality exactly when the total count exceeds 1 and the
modal share exceeds 0.65, and the unresolved sentinel otherwise.  The count
table is the user's slice of the globally descending-sorted value_counts
table, so its head is the modal row. -/
theorem C2_threshold_modal (p : String × Nat) (rest : List (String × Nat))
    (_hmulti : rest ≠ [])
    (hsort : List.Pairwise (fun x y => y.2 ≤ x.2) (p :: rest)) :
    ((1 < sumCounts (p :: rest) ∧
        (0.65 : ℚ) < (maxCounts (p :: rest) : ℚ) / (sumCounts (p :: rest) : ℚ)) →
      user_localization (p :: rest) = p.1 ∧ ∀ q ∈ p :: rest, q.2 ≤ p.2)
    ∧ (¬ (1 < sumCounts (p :: rest) ∧
        (0.65 : ℚ) < (maxCounts (p :: rest) : ℚ) / (sumCounts (p :: rest) : ℚ)) →
      user_localization (p :: rest) = "") := by
  constructor
  · intro hc
    constructor
    · simp only [user_localization]
      rw [if_pos hc]
    · intro q hq
      rcases List.mem_cons.mp hq with rfl | hq2
      · exact le_refl _
      · exact (List.pairwise_cons.mp hsort).1 q hq2
  · intro hc
    simp only [user_localization]
    rw [if_neg hc]

/-- C2 witness: with 10 posts, a 7-3 split resolves to the modal locality and
a 6-4 split resolves to no home. -/
theorem C2_threshold_modal_witness :
    user_localization [("X", 7), ("Y", 3)] = "X" ∧
    user_localization [("X", 6), ("Y", 4)] = "" := by
  constructor
  · exact ((C2_threshold_modal ("X", 7) [("Y", 3)] (by decide) (by decide)).1
      (by constructor <;> norm_num [sumCounts, maxCounts])).1
  · exact (C2_threshold_modal ("X", 6) [("Y", 4)] (by decide) (by decide)).2
      (by norm_num [sumCounts, maxCounts])

theorem find_key_eq {m2 : List (Nat × Option String)} {u : Nat} {h : Option String}
    (hnd : (m2.map Prod.fst).Nodup) (hm : (u, h) ∈ m2) :
    m2.find? (fun q => q.1 == u) = some (u, h) := by
  induction m2 with
  | nil => cases hm
  | cons q rest ih =>
    rw [List.map_cons] at hnd
    have hndh := List.nodup_cons.mp hnd
    rcases List.mem_cons.mp hm with he | hm2
    · rw [← he]
      simp [List.find?]
    · have hq1 : ¬ q.1 = u := by
        intro hc
        apply hndh.1
        rw [hc]
        exact List.mem_map.mpr ⟨(u, h), hm2, rfl⟩
      simp only [List.find?]
      have hbeq : (q.1 == u) = false := by simp [hq1]
      rw [hbeq]
      exact ih hndh.2 hm2

theorem find_key_none {m2 : List (Nat × Option String)} {u : Nat}
    (h : ∀ x, (u, x) ∉ m2) : m2.find? (fun q => q.1 == u) = none := by
  induction m2 with
  | nil => rfl
  | cons q rest ih =>
    have hq1 : ¬ q.1 = u := by
      intro hc
      apply h q.2
      have heta : q = (u, q.2) := by
        rcases q with ⟨a, b⟩
        rw [show a = u from hc]
      rw [← heta]
      exact List.mem_cons_self _ _
    simp only [List.find?]
    have hbeq : (q.1 == u) = false := by simp [hq1]
    rw [hbeq]
    exact ih (fun x hx => h x (List.mem_cons_of_mem _ hx))

theorem key_val_unique {m1 : List (Nat × Option String)} {u : Nat}
    {a b : Option String} (hnd : (m1.map Prod.fst).Nodup)
    (ha : (u, a) ∈ m1) (hb : (u, b) ∈ m1) : a = b := by
  induction m1 with
  | nil => cases ha
  | cons r rest ih =>
    rw [List.map_cons] at hnd
    have hndh := List.nodup_cons.mp hnd
    rcases List.mem_cons.mp ha with hea | hina
    · rcases List.mem_cons.mp hb with heb | hinb
      · exact congrArg Prod.snd (hea.trans heb.symm)
      · exfalso
        apply hndh.1
        rw [← hea]
        exact List.mem_map.mpr ⟨(u, b), hinb, rfl⟩
    · rcases List.mem_cons.mp hb with heb | hinb
      · exfalso
        apply hndh.1
        rw [← heb]
        exact List.mem_map.mpr ⟨(u, a), hina, rfl⟩
      · exact ih hndh.2 hina hinb

theorem migRow_shape {m2 : List (Nat × Option String)} {r : Nat × Option String}
    {t : Nat × String × String} (h : migRow m2 r = some t) :
    t.1 = r.1 ∧ r.2 = some t.2.1 ∧
      ∃ q, m2.find? (fun q => q.1 == r.1) = some q ∧ q.1 = r.1 ∧
        q.2 = some t.2.2 ∧ t.2.1 ≠ t.2.2 := by
  rcases r with ⟨u, ho⟩
  cases ho with
  | none => simp [migRow] at h
  | some h1 =>
    simp only [migRow] at h
    cases hq : m2.find? (fun q => q.1 == u) with
    | none =>
      rw [hq] at h
      replace h : (none : Option (Nat × String × String)) = some t := h
      cases h
    | some q =>
      rw [hq] at h
      replace h : (match q.2 with
        | none => none
        | some h2 => if h1 = h2 then none else some (u, h1, h2)) = some t := h
      cases hq2 : q.2 with
      | none =>
        rw [hq2] at h
        replace h : (none : Option (Nat × String × String)) = some t := h
        cases h
      | some h2 =>
        rw [hq2] at h
        replace h : (if h1 = h2 then none else some (u, h1, h2)) = some t := h
        by_cases he : h1 = h2
        · rw [if_pos he] at h
          cases h
        · rw [if_neg he] at h
          cases h
          have hq1 : q.1 = u := by
            have hp := List.find?_some hq
            simpa using hp
          exact ⟨rfl, rfl, q, rfl, hq1, hq2, he⟩

theorem migRow_eval {m2 : List (Nat × Option String)} {u : Nat} {h1 h2 : String}
    (hq : m2.find? (fun q => q.1 == u) = some (u, some h2)) (hne : h1 ≠ h2) :
    migRow m2 (u, some h1) = some (u, h1, h2) := by
  simp [migRow, hq, hne]

theorem migrationPairs_count_one (m1 m2 : List (Nat × Option String))
    (hnd1 : (m1.map Prod.fst).Nodup) (hnd2 : (m2.map Prod.fst).Nodup)
    {u : Nat} {h1 h2 : String} (hm1 : (u, some h1) ∈ m1) (hm2 : (u, some h2) ∈ m2)
    (hne : h1 ≠ h2) : (migrationPairs m1 m2).count (u, h1, h2) = 1 := by
  have hfind : m2.find? (fun q => q.1 == u) = some (u, some h2) :=
    find_key_eq hnd2 hm2
  induction m1 with
  | nil => cases hm1
  | cons r rest ih =>
    rw [List.map_cons] at hnd1
    have hndh := List.nodup_cons.mp hnd1
    by_cases hru : r.1 = u
    · have hr : r = (u, some h1) := by
        rcases List.mem_cons.mp hm1 with he | hin
        · exact he.symm
        · exfalso
          apply hndh.1
          rw [hru]
          exact List.mem_map.mpr ⟨(u, some h1), hin, rfl⟩
      subst hr
      have hrow : migRow m2 (u, some h1) = some (u, h1, h2) := migRow_eval hfind hne
      have hcount0 : (migrationPairs rest m2).count (u, h1, h2) = 0 := by
        apply List.count_eq_zero.mpr
        intro hc
        rcases List.mem_filterMap.mp hc with ⟨r2, hr2, hfr2⟩
        have h1a : u = r2.1 := (migRow_shape hfr2).1
        apply hndh.1
        have hu : u ∈ rest.map Prod.fst := by
          rw [h1a]
          exact List.mem_map.mpr ⟨r2, hr2, rfl⟩
        exact hu
      rw [migrationPairs, List.filterMap_cons, hrow]
      rw [List.count_cons_self]
      rw [show rest.filterMap (migRow m2) = migrationPairs rest m2 from rfl, hcount0]
    · have hm1a : (u, some h1) ∈ rest := by
        rcases List.mem_cons.mp hm1 with he | hin
        · exfalso
          apply hru
          exact congrArg Prod.fst he.symm
        · exact hin
      have ihv := ih hndh.2 hm1a
      cases hfr : migRow m2 r with
      | none =>
        rw [migrationPairs, List.filterMap_cons, hfr]
        exact ihv
      | some t2 =>
        have ht2 : t2.1 = r.1 := (migRow_shape hfr).1
        have htne : ((u, h1, h2) : Nat × String × String) ≠ t2 := by
          intro hc
          apply hru
          have hx : ((u, h1, h2) : Nat × String × String).1 = t2.1 := by rw [hc]
          have hy : u = r.1 := by
            rw [← ht2]
            exact hx
          exact hy.symm
        rw [migrationPairs, List.filterMap_cons, hfr]
        rw [List.count_cons_of_ne htne]
        exact ihv

/-- C5: a user with a home in both months contributes exactly one migration
row, carrying that origin and destination, when the homes differ; identical
homes contribute nothing; a missing home on either side, or absence from the
second month, excludes the user from all flows. -/
theorem C5_migration_flow_contribution (m1 m2 : List (Nat × Option String))
    (hnd1 : (m1.map Prod.fst).Nodup) (hnd2 : (m2.map Prod.fst).Nodup) :
    (∀ u h1 h2, (u, some h1) ∈ m1 → (u, some h2) ∈ m2 → h1 ≠ h2 →
        (migrationPairs m1 m2).count (u, h1, h2) = 1 ∧
        (∀ t ∈ migrationPairs m1 m2, t.1 = u → t = (u, h1, h2)) ∧
        1 ≤ migration_flow m1 m2 h1 h2)
    ∧ (∀ u h, (u, some h) ∈ m1 → (u, some h) ∈ m2 →
        ∀ t ∈ migrationPairs m1 m2, t.1 ≠ u)
    ∧ (∀ u, ((u, none) ∈ m1 ∨ (u, none) ∈ m2 ∨ (∀ x, (u, x) ∉ m2)) →
        ∀ t ∈ migrationPairs m1 m2, t.1 ≠ u) := by
  refine ⟨?_, ?_, ?_⟩
  · intro u h1 h2 hm1 hm2 hne
    have hcount := migrationPairs_count_one m1 m2 hnd1 hnd2 hm1 hm2 hne
    have huniq : ∀ t ∈ migrationPairs m1 m2, t.1 = u → t = (u, h1, h2) := by
      intro t ht htu
      rcases List.mem_filterMap.mp ht with ⟨r, hr, hfr⟩
      rcases migRow_shape hfr with ⟨ht1, hr2, q, hq, hq1, hq2, hne2⟩
      have hru : r.1 = u := by rw [← ht1, htu]
      have heta : r = (u, r.2) := by
        rcases r with ⟨a, b⟩
        rw [show a = u from hru]
      have hrm : (u, r.2) ∈ m1 := by
        rw [← heta]
        exact hr
      have hval : r.2 = some h1 := key_val_unique hnd1 hrm hm1
      have hfq : m2.find? (fun q => q.1 == u) = some q := by
        rw [← hru]
        exact hq
      have hfind : m2.find? (fun q => q.1 == u) = some (u, some h2) :=
        find_key_eq hnd2 hm2
      have hqe : q = (u, some h2) := by
        rw [hfq] at hfind
        exact Option.some.inj hfind
      rcases t with ⟨tu, t2, t3⟩
      have htuu : tu = u := htu
      have ht2e : t2 = h1 := by
        have hx : r.2 = some t2 := hr2
        rw [hval] at hx
        exact (Option.some.inj hx).symm
      have ht3e : t3 = h2 := by
        have hx : q.2 = some t3 := hq2
        rw [hqe] at hx
        exact (Option.some.inj hx).symm
      rw [htuu, ht2e, ht3e]
    refine ⟨hcount, huniq, ?_⟩
    have hmem : ((u, h1, h2) : Nat × String × String) ∈ migrationPairs m1 m2 := by
      by_contra hc
      rw [List.count_eq_zero_of_not_mem hc] at hcount
      cases hcount
    have hmemf : ((u, h1, h2) : Nat × String × String) ∈
        (migrationPairs m1 m2).filter (fun t => t.2.1 == h1 && t.2.2 == h2) :=
      List.mem_filter.mpr ⟨hmem, by simp⟩
    exact List.length_pos.mpr (List.ne_nil_of_mem hmemf)
  · intro u h hm1 hm2 t ht htu
    rcases List.mem_filterMap.mp ht with ⟨r, hr, hfr⟩
    rcases migRow_shape hfr with ⟨ht1, hr2, q, hq, hq1, hq2, hne2⟩
    have hru : r.1 = u := by rw [← ht1, htu]
    have heta : r = (u, r.2) := by
      rcases r with ⟨a, b⟩
      rw [show a = u from hru]
    have hrm : (u, r.2) ∈ m1 := by
      rw [← heta]
      exact hr
    have hval : r.2 = some h := key_val_unique hnd1 hrm hm1
    have hfq : m2.find? (fun q => q.1 == u) = some q := by
      rw [← hru]
      exact hq
    have hfind : m2.find? (fun q => q.1 == u) = some (u, some h) :=
      find_key_eq hnd2 hm2
    have hqe : q = (u, some h) := by
      rw [hfq] at hfind
      exact Option.some.inj hfind
    apply hne2
    have hx : r.2 = some t.2.1 := hr2
    rw [hval] at hx
    have hy : q.2 = some t.2.2 := hq2
    rw [hqe] at hy
    rw [← Option.some.inj hx, ← Option.some.inj hy]
  · intro u hcase t ht htu
    rcases List.mem_filterMap.mp ht with ⟨r, hr, hfr⟩
    rcases migRow_shape hfr with ⟨ht1, hr2, q, hq, hq1, hq2, hne2⟩
    have hru : r.1 = u := by rw [← ht1, htu]
    have heta : r = (u, r.2) := by
      rcases r with ⟨a, b⟩
      rw [show a = u from hru]
    have hrm : (u, r.2) ∈ m1 := by
      rw [← heta]
      exact hr
    rcases hcase with hc1 | hc2 | hc3
    · have hv := key_val_unique hnd1 hrm hc1
      rw [hr2] at hv
      cases hv
    · have hfq : m2.find? (fun q => q.1 == u) = some q := by
        rw [← hru]
        exact hq
      have hfind : m2.find? (fun q => q.1 == u) = some (u, none) :=
        find_key_eq hnd2 hc2
      have hqe : q = (u, none) := by
        rw [hfq] at hfind
        exact Option.some.inj hfind
      rw [hqe] at hq2
      cases hq2
    · have hfq : m2.find? (fun q => q.1 == u) = some q := by
        rw [← hru]
        exact hq
      rw [find_key_none hc3] at hfq
      cases hfq

/-- C5 witness: a user moving from "Bristol, City of" to "Dundee City"
contributes exactly one flow count from that origin to that destination. -/
theorem C5_migration_flow_contribution_witness :
    (migrationPairs [(1, some "Bristol, City of")] [(1, some "Dundee City")]).count
      (1, "Bristol, City of", "Dundee City") = 1 ∧
    1 ≤ migration_flow [(1, some "Bristol, City of")] [(1, some "Dundee City")]
      "Bristol, City of" "Dundee City" := by
  have h := (C5_migration_flow_contribution [(1, some "Bristol, City of")]
      [(1, some "Dundee City")] (by decide) (by decide)).1
      1 "Bristol, City of" "Dundee City" (by decide) (by decide) (by decide)
  exact ⟨h.1, h.2.2⟩

theorem mem_insertByDesc {α : Type} (key : α → Nat) (a x : α) :
    ∀ l : List α, x ∈ insertByDesc key a l ↔ x = a ∨ x ∈ l := by
  intro l
  induction l with
  | nil => simp [insertByDesc]
  | cons b rest ih =>
    simp only [insertByDesc]
    by_cases h : key b < key a
    · rw [if_pos h]
      simp only [List.mem_cons]
    · rw [if_neg h]
      simp only [List.mem_cons, ih]
      tauto

theorem pairwise_insertByDesc {α : Type} (key : α → Nat) (a : α) :
    ∀ {l : List α}, List.Pairwise (fun x y => key y ≤ key x) l →
      List.Pairwise (fun x y => key y ≤ key x) (insertByDesc key a l) := by
  intro l
  induction l with
  | nil =>
    intro _
    simp [insertByDesc]
  | cons b rest ih =>
    intro hp
    have hbp := List.pairwise_cons.mp hp
    simp only [insertByDesc]
    by_cases h : key b < key a
    · rw [if_pos h]
      apply List.pairwise_cons.mpr
      refine ⟨?_, hp⟩
      intro y hy
      rcases List.mem_cons.mp hy with rfl | hy2
      · exact le_of_lt h
      · exact le_trans (hbp.1 y hy2) (le_of_lt h)
    · rw [if_neg h]
      apply List.pairwise_cons.mpr
      refine ⟨?_, ih hbp.2⟩
      intro y hy
      rcases (mem_insertByDesc key a y rest).mp hy with rfl | hy2
      · exact not_lt.mp h
      · exact hbp.1 y hy2

theorem sortByDesc_sorted {α : Type} (key : α → Nat) (l : List α) :
    List.Pairwise (fun x y => key y ≤ key x) (sortByDesc key l) := by
  induction l with
  | nil => simp [sortByDesc]
  | cons a rest ih => exact pairwise_insertByDesc key a ih

theorem mem_sortByDesc {α : Type} (key : α → Nat) (l : List α) (x : α) :
    x ∈ sortByDesc key l ↔ x ∈ l := by
  induction l with
  | nil => simp [sortByDesc]
  | cons a rest ih =>
    show x ∈ insertByDesc key a (sortByDesc key rest) ↔ _
    rw [mem_insertByDesc key a x (sortByDesc key rest), ih]
    simp [List.mem_cons]

theorem applyThreshold_map_fst (loc : Nat → String) :
    ∀ (rows : List (Nat × Nat × Option String)) (k : Nat),
      (applyThreshold loc rows k).map (fun r => r.1) = rows.map (fun r => r.1) := by
  intro rows
  induction rows with
  | nil => intro k; rfl
  | cons r rest ih =>
    intro k
    cases k with
    | zero => rfl
    | succ k =>
      show (processRow loc r :: applyThreshold loc rest k).map _ = _
      simp only [List.map_cons, ih]
      congr 1
      cases hr : r.2.2 <;> simp [processRow, hr]

theorem applyThreshold_mem_shape (loc : Nat → String) :
    ∀ (rows : List (Nat × Nat × Option String)) (k : Nat)
      (r2 : Nat × Nat × Option String), r2 ∈ applyThreshold loc rows k →
      ∃ r ∈ rows, r2.1 = r.1 ∧ (r2.2.2 = r.2.2 ∨ r.2.2 = none) := by
  intro rows
  induction rows with
  | nil =>
    intro k r2 h
    cases h
  | cons r rest ih =>
    intro k r2 h
    cases k with
    | zero =>
      replace h : r2 ∈ r :: rest := h
      exact ⟨r2, h, rfl, Or.inl rfl⟩
    | succ k =>
      replace h : r2 ∈ processRow loc r :: applyThreshold loc rest k := h
      rcases List.mem_cons.mp h with rfl | h2
      · cases hr : r.2.2 with
        | some v =>
          refine ⟨r, List.mem_cons_self _ _, ?_, Or.inl ?_⟩ <;> simp [processRow, hr]
        | none =>
          refine ⟨r, List.mem_cons_self _ _, ?_, Or.inr hr⟩
          simp [processRow, hr]
      · rcases ih k r2 h2 with ⟨r3, hr3, he⟩
        exact ⟨r3, List.mem_cons_of_mem _ hr3, he⟩

theorem initialRows_shape (posts : List (Nat × String)) :
    ∀ r ∈ initialRows posts,
      r.2.1 = userTotal posts r.1 ∧ r.2.2 = oneLocHome posts r.1 ∧ 1 < r.2.1 := by
  intro r hr
  rcases List.mem_map.mp hr with ⟨rp, hrp, rfl⟩
  have hf := List.mem_filter.mp hrp
  rcases List.mem_map.mp hf.1 with ⟨u, _, rfl⟩
  exact ⟨rfl, rfl, of_decide_eq_true hf.2⟩

theorem initialRows_sorted (posts : List (Nat × String)) :
    List.Pairwise (fun a b => b.2.1 ≤ a.2.1) (initialRows posts) := by
  have h1 : List.Pairwise (fun a b : Nat => userTotal posts b ≤ userTotal posts a)
      (usersSorted posts) := sortByDesc_sorted (userTotal posts) (userList posts)
  have h2 : List.Pairwise (fun a b : Nat × Nat => b.2 ≤ a.2)
      ((usersSorted posts).map (fun u => (u, userTotal posts u))) := by
    rw [List.pairwise_map]
    exact h1
  have h4 : List.Pairwise (fun a b : Nat × Nat => b.2 ≤ a.2) (user_LAD_rows posts) :=
    h2.filter _
  rw [initialRows, List.pairwise_map]
  exact h4

theorem mem_initialRows_of (posts : List (Nat × String)) (u : Nat)
    (h : 2 ≤ userTotal posts u) :
    (u, userTotal posts u, oneLocHome posts u) ∈ initialRows posts := by
  have hu : u ∈ userList posts := by
    have hne : userPosts posts u ≠ [] := by
      intro hc
      rw [userTotal, hc] at h
      cases h
    rcases List.exists_mem_of_ne_nil _ hne with ⟨l, hl⟩
    rcases List.mem_map.mp hl with ⟨p, hp, rfl⟩
    have hpf := List.mem_filter.mp hp
    have hpu : p.1 = u := by simpa using hpf.2
    apply List.mem_dedup.mpr
    exact List.mem_map.mpr ⟨p, hpf.1, hpu⟩
  have hu2 : u ∈ usersSorted posts := (mem_sortByDesc _ _ _).mpr hu
  have h3 : (u, userTotal posts u) ∈ user_LAD_rows posts := by
    apply List.mem_filter.mpr
    refine ⟨List.mem_map.mpr ⟨u, hu2, rfl⟩, ?_⟩
    exact decide_eq_true (by omega)
  exact List.mem_map.mpr ⟨(u, userTotal posts u), h3, rfl⟩

theorem applyThreshold_id (loc : Nat → String) :
    ∀ (rows : List (Nat × Nat × Option String)) (k : Nat),
      (∀ r ∈ rows, processRow loc r = r) → applyThreshold loc rows k = rows := by
  intro rows
  induction rows with
  | nil => intro k _; rfl
  | cons r rest ih =>
    intro k h
    cases k with
    | zero => rfl
    | succ k =>
      show processRow loc r :: applyThreshold loc rest k = r :: rest
      rw [h r (List.mem_cons_self _ _), ih k (fun x hx => h x (List.mem_cons_of_mem _ hx))]

theorem applyThreshold_endline_eq (loc : Nat → String) :
    ∀ rows : List (Nat × Nat × Option String),
      List.Pairwise (fun a b => b.2.1 ≤ a.2.1) rows →
      (∀ r ∈ rows, 2 ≤ r.2.1) →
      (∀ r ∈ rows, r.2.1 = 2 → r.2.2 = none → loc r.1 = "") →
      applyThreshold loc rows (endline rows) = applyThreshold loc rows rows.length := by
  intro rows
  induction rows with
  | nil =>
    intro _ _ _
    rfl
  | cons r rest ih =>
    intro hsort h2 hloc
    have hsc := List.pairwise_cons.mp hsort
    by_cases hr2 : r.2.1 = 2
    · have hall : ∀ x ∈ r :: rest, x.2.1 = 2 := by
        intro x hx
        rcases List.mem_cons.mp hx with rfl | hx2
        · exact hr2
        · have hle := hsc.1 x hx2
          have hge := h2 x (List.mem_cons_of_mem _ hx2)
          omega
      have hid : ∀ x ∈ r :: rest, processRow loc x = x := by
        intro x hx
        rcases x with ⟨a, b, c⟩
        cases c with
        | some v => simp [processRow]
        | none =>
          have hl := hloc (a, b, none) hx (hall (a, b, none) hx) rfl
          simp [processRow, hl, optOfStr]
      have hfl : (r :: rest).filter (fun x => x.2.1 == 2) = r :: rest :=
        List.filter_eq_self.mpr (fun x hx => by simp [hall x hx])
      have hend : endline (r :: rest) = 0 := by
        rw [endline, hfl]
        omega
      rw [hend, applyThreshold_id loc (r :: rest) 0 hid,
        applyThreshold_id loc (r :: rest) (r :: rest).length hid]
    · have hflen : ((r :: rest).filter (fun x => x.2.1 == 2)).length =
          (rest.filter (fun x => x.2.1 == 2)).length := by
        simp [List.filter_cons, hr2]
      have hfle : (rest.filter (fun x => x.2.1 == 2)).length ≤ rest.length :=
        List.length_filter_le _ _
      have hend : endline (r :: rest) = endline rest + 1 := by
        rw [endline, endline, hflen, List.length_cons]
        omega
      rw [hend]
      show processRow loc r :: applyThreshold loc rest (endline rest) =
        applyThreshold loc (r :: rest) (rest.length + 1)
      show processRow loc r :: applyThreshold loc rest (endline rest) =
        processRow loc r :: applyThreshold loc rest rest.length
      rw [ih hsc.2 (fun x hx => h2 x (List.mem_cons_of_mem _ hx))
        (fun x hx => hloc x (List.mem_cons_of_mem _ hx))]

theorem two_post_loc (posts : List (Nat × String)) (u : Nat)
    (ht : userTotal posts u = 2) (ho : oneLocHome posts u = none) :
    locFn posts u = "" := by
  rcases hup : userPosts posts u with _ | ⟨a, rest⟩
  · rw [userTotal, hup] at ht
    cases ht
  rcases rest with _ | ⟨b, rest2⟩
  · rw [userTotal, hup] at ht
    cases ht
  rcases rest2 with _ | ⟨c, rest3⟩
  case cons.cons.cons =>
    rw [userTotal, hup] at ht
    simp at ht
  have hne : a ≠ b := by
    intro hc
    subst hc
    have hd1 : userDistinctLocs posts u = [a] := by
      rw [userDistinctLocs, hup]
      simp
    rw [oneLocHome, hd1] at ho
    cases ho
  have hd2 : userDistinctLocs posts u = [a, b] := by
    rw [userDistinctLocs, hup]
    simp [List.dedup_cons_of_not_mem, hne]
  have hca : ([a, b] : List String).count a = 1 := by
    simp [List.count_cons, hne]
  have hcb : ([a, b] : List String).count b = 1 := by
    simp [List.count_cons, hne]
  have hct : countTable posts u = [(b, 1), (a, 1)] := by
    rw [countTable, hd2, hup]
    rw [List.map_cons, List.map_cons, List.map_nil, hca, hcb]
    rfl
  have hloc : user_localization [(b, 1), (a, 1)] = "" := by
    simp only [user_localization]
    rw [if_neg]
    intro hc
    have h65 := hc.2
    norm_num [maxCounts, sumCounts] at h65
  rw [locFn, hct, hloc]

/-- C10: because the per-user table is sorted by descending post count with
all counts above 1, the rows the endline bound skips are exactly the users
with two posts; such a user either already has a one-locality home or a
maximal share of 1/2, which fails the 0.65 threshold, so restricting the
threshold pass to the first endline rows yields exactly the table that
running the pass on every row would. -/
theorem C10_endline_skip_equivalent (posts : List (Nat × String)) :
    monthlyTable posts =
      applyThreshold (locFn posts) (initialRows posts) (initialRows posts).length := by
  rw [monthlyTable]
  apply applyThreshold_endline_eq
  · exact initialRows_sorted posts
  · intro r hr
    have hs := (initialRows_shape posts r hr).2.2
    omega
  · intro r hr h2 hnone
    have hs := initialRows_shape posts r hr
    apply two_post_loc
    · rw [← hs.1]
      exact h2
    · rw [← hs.2.1]
      exact hnone

/-- C1 counterexample: a user with a single post in one locality is removed
from the monthly table by the counts > 1 filter and receives no home at all,
against the claim's "even when the user has only a single post". -/
theorem C1_single_post_excluded :
    userDistinctLocs [(1, "Bristol, City of")] 1 = ["Bristol, City of"] ∧
    homeOf [(1, "Bristol, City of")] 1 = none := by
  exact ⟨by decide, by decide⟩

/-- C1 amended: a user with more than one post all in a single distinct
locality is assigned that locality as home; a single-post user is dropped
from the monthly table by the counts > 1 filter and gets no home. -/
theorem C1_one_locality_home (posts : List (Nat × String)) (u : Nat) (X : String)
    (ht : 2 ≤ userTotal posts u) (hd : userDistinctLocs posts u = [X]) :
    homeOf posts u = some X := by
  have hone : oneLocHome posts u = some X := by
    rw [oneLocHome, hd]
  have hmem := mem_initialRows_of posts u ht
  have huid : u ∈ (monthlyTable posts).map (fun r => r.1) := by
    rw [monthlyTable, applyThreshold_map_fst]
    exact List.mem_map.mpr ⟨(u, userTotal posts u, oneLocHome posts u), hmem, rfl⟩
  rcases List.mem_map.mp huid with ⟨r2, hr2, hr2u⟩
  have hfind : ∃ r3, (monthlyTable posts).find? (fun r => r.1 == u) = some r3 := by
    apply Option.isSome_iff_exists.mp
    rw [List.find?_isSome]
    exact ⟨r2, hr2, by simp [hr2u]⟩
  rcases hfind with ⟨r3, hfr3⟩
  have hr3mem := List.mem_of_find?_eq_some hfr3
  have hr3u : r3.1 = u := by simpa using List.find?_some hfr3
  rw [monthlyTable] at hr3mem
  rcases applyThreshold_mem_shape (locFn posts) (initialRows posts) _ r3 hr3mem with
    ⟨r0, hr0, huid0, hcase⟩
  have hs0 := initialRows_shape posts r0 hr0
  have hr0u : r0.1 = u := by rw [← huid0, hr3u]
  have h0one : r0.2.2 = some X := by
    rw [hs0.2.1, hr0u, hone]
  have hhome : homeOf posts u = r3.2.2 := by
    simp only [homeOf]
    rw [hfr3]
  rcases hcase with hc | hc
  · rw [hhome, hc, h0one]
  · rw [hc] at h0one
    cases h0one

/-- C1 witness: two posts in the same locality yield that home. -/
theorem C1_one_locality_home_witness :
    homeOf [(1, "A"), (1, "A")] 1 = some "A" :=
  C1_one_locality_home [(1, "A"), (1, "A")] 1 "A" (by decide) (by decide)

end InternalMigration
